import Mathlib

/-!
Verification of the Collision-Probability Evaluator of this repository
(`problog_test.py`): the script groups CSV rows by timestep, assembles a
probabilistic-logic program per group (weighted facts `p::close(d1, d2).`,
the rule `unsafe :- close(X, Y).` and the query directive), hands it to an
external exact-inference engine, and prints the program, the probability and
the elapsed time per timestep.

The construction and the driving loop are embedded from the source.  The
external inference engine (the `problog` library) is not part of this
repository's sources, so its evaluation step is modelled from the spec as
exact weighted model counting over independent Bernoulli variables.
Probabilities are modelled as exact rationals.
-/

/-- One observation row of the input CSV: timestep key `t`, pair identifiers
`d1`, `d2`, and closeness probability `p_close`.  Identifiers and keys are
arbitrary strings; the probability is an exact rational. -/
structure Row where
  t : String
  d1 : String
  d2 : String
  p_close : ℚ
deriving DecidableEq, Repr

/-- The weighted-fact line emitted for one row (source line 17):
`f'{row["p_close"]}::close({row["d1"]}, {row["d2"]}).\n'`.  The probability
value is rendered by its canonical textual form. -/
def factLine (r : Row) : String :=
  toString r.p_close ++ "::close(" ++ r.d1 ++ ", " ++ r.d2 ++ ").\n"

/-- The derived-rule line appended after the facts (source line 19). -/
def ruleLine : String := "unsafe :- close(X, Y).\n"

/-- The query directive appended last (source line 20). -/
def queryLine : String := "query(unsafe)."

/-- The program text assembled for one timestep group (source lines 13-20):
start from the empty string, append one fact line per row in row order, then
the rule line, then the query directive. -/
def buildModel (rows : List Row) : String :=
  (rows.foldl (fun m r => m ++ factLine r) "") ++ ruleLine ++ queryLine

/-- Errors of the external evaluation step, per the spec's error taxonomy. -/
inductive EngineError where
  | domainError
  | evaluationError
deriving DecidableEq, Repr

/-- All assignments of truth values to `n` Boolean variables. -/
def allAssignments : Nat → List (List Bool)
  | 0 => [[]]
  | n + 1 =>
    ((allAssignments n).map (fun w => true :: w))
      ++ ((allAssignments n).map (fun w => false :: w))

/-- The weight of one world: the product, over the program's probabilistic
facts, of `p` when the fact is true in the world and `1 - p` when false. -/
def worldWeight : List ℚ → List Bool → ℚ
  | p :: ps, b :: w => (if b then p else 1 - p) * worldWeight ps w
  | _, _ => 1

/-- Modelled from the spec: the external Probabilistic Inference Engine
(`get_evaluatable().create_from(...).evaluate()` of the `problog` library,
which is not among this repository's sources) computes the exact marginal
probability of the query `unsafe` by weighted model counting: the sum of the
weights of all worlds in which some `close` fact holds, each fact being an
independent Bernoulli variable. -/
def wmcQuery (ps : List ℚ) : ℚ :=
  (((allAssignments ps.length).filter (fun w => w.any id)).map (worldWeight ps)).sum

/-- Modelled from the spec: evaluation of the assembled program on the fact
probabilities.  A probability outside `[0, 1]` fails with `DomainError`;
otherwise the exact marginal of `unsafe` is returned. -/
def evaluateProgram (ps : List ℚ) : Except EngineError ℚ :=
  if ∀ p ∈ ps, 0 ≤ p ∧ p ≤ 1 then .ok (wmcQuery ps) else .error .domainError

/-- Evaluation of one timestep group: the program built from the group's rows
is evaluated; only the rows' probabilities enter the result. -/
def evaluateGroup (rows : List Row) : Except EngineError ℚ :=
  evaluateProgram (rows.map Row.p_close)

/-- Scan of the timestep column keeping the first occurrence of each distinct
value, carrying the set of keys already seen: the embedding of
`data["t"].unique()` (source line 12), which returns unique values in order
of first appearance. -/
def firstUniqueFrom (seen : List String) : List String → List String
  | [] => []
  | x :: xs =>
    if x ∈ seen then firstUniqueFrom seen xs
    else x :: firstUniqueFrom (x :: seen) xs

/-- The distinct timestep keys in order of first appearance. -/
def firstUnique (l : List String) : List String :=
  firstUniqueFrom [] l

/-- The timestep group of key `k`: the rows whose `t` equals `k`, in row
order (source line 14, `data[data["t"] == timestamp]`). -/
def groupOf (table : List Row) (k : String) : List Row :=
  table.filter (fun r => r.t = k)

/-- The loop body iterated over the given keys (source lines 12-30).  Each
key's group is built and evaluated in turn; an uncaught evaluation error
stops the loop (the script has no exception handling), so the outputs
produced so far and the offending key with its error are returned. -/
def runKeys (table : List Row) : List String → List (String × String × ℚ) × Option (String × EngineError)
  | [] => ([], none)
  | k :: ks =>
    match evaluateGroup (groupOf table k) with
    | .error e => ([], some (k, e))
    | .ok p =>
      let rest := runKeys table ks
      ((k, buildModel (groupOf table k), p) :: rest.1, rest.2)

/-- The whole script: iterate over the distinct timestep values in order of
first appearance, emitting per timestep the program text and the computed
probability. -/
def run (table : List Row) : List (String × String × ℚ) × Option (String × EngineError) :=
  runKeys table (firstUnique (table.map Row.t))

/-- The program text as the claim describes it: one weighted-fact line per
row, in row order. -/
def specFactLine (r : Row) : String :=
  toString r.p_close ++ "::close(" ++ r.d1 ++ ", " ++ r.d2 ++ ").\n"

/-- The program text as the claim describes it: the fact lines in row order,
then the rule line, then the query directive marking `unsafe` as the sole
query target. -/
def specModelText (rows : List Row) : String :=
  String.join (rows.map specFactLine) ++ "unsafe :- close(X, Y).\n" ++ "query(unsafe)."

/-- The probability computed for the group of key `k`. -/
def groupProb (table : List Row) (k : String) : ℚ :=
  wmcQuery ((groupOf table k).map Row.p_close)

/-- The claim's description of `unique`: scan the timestep column left to
right, appending each value not seen before, so that distinct values are
listed in order of first appearance. -/
def specFirstAppearance (l : List String) : List String :=
  l.foldl (fun acc x => if x ∈ acc then acc else acc ++ [x]) []

/-- The example group of the claims: `[(a, b, 0.5), (a, c, 0.5)]`. -/
def exampleRows : List Row :=
  [⟨"0", "a", "b", 1/2⟩, ⟨"0", "a", "c", 1/2⟩]

/-- A table whose first timestep holds an out-of-range probability and whose
second timestep is well-formed. -/
def errorTable : List Row :=
  [⟨"0", "a", "b", 3/2⟩, ⟨"1", "c", "d", 1/2⟩]

/-- A single-row group carrying the out-of-range probability `1.5`. -/
def badGroup : List Row := [⟨"0", "a", "b", 3/2⟩]

lemma worldWeight_cons (p : ℚ) (ps : List ℚ) (b : Bool) (w : List Bool) :
    worldWeight (p :: ps) (b :: w) = (if b then p else 1 - p) * worldWeight ps w := rfl

lemma sum_worldWeight_all (ps : List ℚ) :
    (((allAssignments ps.length)).map (worldWeight ps)).sum = 1 := by
  induction ps with
  | nil => simp [allAssignments, worldWeight]
  | cons p ps ih =>
    simp only [List.length_cons, allAssignments, List.map_append, List.sum_append,
      List.map_map]
    have h1 : ((allAssignments ps.length).map
        (worldWeight (p :: ps) ∘ fun w => true :: w)).sum
        = p * ((allAssignments ps.length).map (worldWeight ps)).sum := by
      rw [← List.sum_map_mul_left]
      congr 1
    have h2 : ((allAssignments ps.length).map
        (worldWeight (p :: ps) ∘ fun w => false :: w)).sum
        = (1 - p) * ((allAssignments ps.length).map (worldWeight ps)).sum := by
      rw [← List.sum_map_mul_left]
      congr 1
    rw [h1, h2, ih]
    ring

lemma filter_not_any (n : Nat) :
    (allAssignments n).filter (fun w => !(w.any id)) = [List.replicate n false] := by
  induction n with
  | zero => simp [allAssignments]
  | succ n ih =>
    rw [allAssignments, List.filter_append]
    have h1 : ((allAssignments n).map (fun w => true :: w)).filter
        (fun w => !(w.any id)) = [] := by
      simp [List.filter_map, Function.comp]
    have h2 : ((allAssignments n).map (fun w => false :: w)).filter
        (fun w => !(w.any id))
        = ((allAssignments n).filter (fun w => !(w.any id))).map
            (fun w => false :: w) := by
      rw [List.filter_map]
      congr 1
    rw [h1, h2, ih]
    simp [List.replicate_succ]

lemma worldWeight_replicate_false (ps : List ℚ) :
    worldWeight ps (List.replicate ps.length false)
      = (ps.map (fun p => 1 - p)).prod := by
  induction ps with
  | nil => simp [worldWeight]
  | cons p ps ih => simp [List.replicate_succ, worldWeight_cons, ih]

lemma sum_filter_split {α : Type} (l : List α) (q : α → Bool) (f : α → ℚ) :
    ((l.filter q).map f).sum + ((l.filter (fun a => !(q a))).map f).sum
      = (l.map f).sum := by
  induction l with
  | nil => simp
  | cons a l ih =>
    by_cases h : q a
    · rw [List.filter_cons_of_pos h, List.filter_cons_of_neg (by simp [h])]
      simp only [List.map_cons, List.sum_cons]
      linarith [ih]
    · rw [List.filter_cons_of_neg (by simp [h]), List.filter_cons_of_pos (by simp [h])]
      simp only [List.map_cons, List.sum_cons]
      linarith [ih]

lemma wmcQuery_eq (ps : List ℚ) :
    wmcQuery ps = 1 - (ps.map (fun p => 1 - p)).prod := by
  have hsplit := sum_filter_split (allAssignments ps.length)
    (fun w => w.any id) (worldWeight ps)
  rw [sum_worldWeight_all ps, filter_not_any ps.length] at hsplit
  simp only [List.map_cons, List.map_nil, List.sum_cons, List.sum_nil,
    worldWeight_replicate_false, add_zero] at hsplit
  rw [wmcQuery]
  linarith

/-- C1: for a timestep group whose probabilities all lie in `[0, 1]`, the
probability computed for the query `unsafe` is exactly the noisy-OR
`1 - Π (1 - p_i)` over the group's rows. -/
theorem evaluateGroup_noisy_or (rows : List Row)
    (h : ∀ r ∈ rows, 0 ≤ r.p_close ∧ r.p_close ≤ 1) :
    evaluateGroup rows = .ok (1 - (rows.map (fun r => 1 - r.p_close)).prod) := by
  have hcond : ∀ p ∈ rows.map Row.p_close, 0 ≤ p ∧ p ≤ 1 := by
    intro p hp
    obtain ⟨r, hr, rfl⟩ := List.mem_map.mp hp
    exact h r hr
  rw [evaluateGroup, evaluateProgram, if_pos hcond, wmcQuery_eq]
  simp only [List.map_map]
  rfl

/-- C1 witness: the group `[(a, b, 0.5), (a, c, 0.5)]` yields
`P(unsafe) = 0.75`. -/
theorem evaluateGroup_noisy_or_witness :
    evaluateGroup exampleRows = .ok (3/4) := by
  have h := evaluateGroup_noisy_or exampleRows (by norm_num [exampleRows])
  rw [h]
  norm_num [exampleRows]

/-- C5: evaluating an empty timestep group returns probability `0` for
`unsafe`. -/
theorem empty_group_probability_zero :
    evaluateGroup [] = .ok 0 := by
  norm_num [evaluateGroup, evaluateProgram, wmcQuery, allAssignments]

/-- C6: a single pair with probability `1` yields `P(unsafe) = 1` exactly,
and a single pair with probability `0` yields `P(unsafe) = 0` exactly. -/
theorem boundary_probabilities_exact (t d1 d2 : String) :
    evaluateGroup [⟨t, d1, d2, 1⟩] = .ok 1
      ∧ evaluateGroup [⟨t, d1, d2, 0⟩] = .ok 0 := by
  constructor <;>
    norm_num [evaluateGroup, evaluateProgram, wmcQuery, allAssignments, worldWeight]

lemma join_cons (s : String) (l : List String) :
    String.join (s :: l) = s ++ String.join l := by
  simp [String.join_eq, String.ext_iff, String.data_append]

lemma foldl_append_eq_join (rows : List Row) (s : String) :
    rows.foldl (fun m r => m ++ factLine r) s
      = s ++ String.join (rows.map factLine) := by
  induction rows generalizing s with
  | nil => simp [String.join]
  | cons r rows ih =>
    rw [List.map_cons, join_cons, List.foldl_cons, ih, String.append_assoc]

/-- C2: the program text assembled for a timestep group is exactly, in order,
one weighted-fact line per row of the group in row order, then the rule line
`unsafe :- close(X, Y).`, then the query directive `query(unsafe).`. -/
theorem buildModel_matches_spec_text (rows : List Row) :
    buildModel rows = specModelText rows := by
  rw [buildModel, foldl_append_eq_join, String.empty_append]
  rfl

lemma join_factor (rows : List Row) (r : Row) (h : r ∈ rows) :
    ∃ s t : String, String.join (rows.map factLine) = s ++ (factLine r ++ t) := by
  induction rows with
  | nil => cases h
  | cons x xs ih =>
    rw [List.map_cons, join_cons]
    rcases List.mem_cons.mp h with rfl | hx
    · exact ⟨"", String.join (xs.map factLine), by rw [String.empty_append]⟩
    · obtain ⟨s, t, hst⟩ := ih hx
      exact ⟨factLine x ++ s, t, by rw [hst, String.append_assoc]⟩

/-- C10: program construction is total and validates nothing: for any rows,
with arbitrary identifier strings and an arbitrary (possibly out-of-range)
probability, the assembled text embeds each row's weighted-fact line
verbatim, so malformed identifiers and out-of-range probabilities reach the
evaluator inside the program text. -/
theorem construction_total_verbatim (rows : List Row) (r : Row) (h : r ∈ rows) :
    ∃ s t : String, buildModel rows = s ++ (factLine r ++ t) := by
  obtain ⟨s, t, hst⟩ := join_factor rows r h
  refine ⟨s, t ++ (ruleLine ++ queryLine), ?_⟩
  rw [buildModel, foldl_append_eq_join, String.empty_append, hst]
  simp [String.append_assoc]

/-- A row carrying a malformed pair identifier and the out-of-range
probability `1.5`. -/
def malformedRow : Row := ⟨"0", "a, b)", "x", 3/2⟩

/-- A table containing `malformedRow` alongside a well-formed row. -/
def malformedTable : List Row := [⟨"0", "ok1", "ok2", 1/2⟩, malformedRow]

/-- C10 witness: the fact line of the malformed out-of-range row appears
verbatim inside the program text built from `malformedTable`. -/
theorem construction_total_verbatim_witness :
    ∃ s t : String, buildModel malformedTable = s ++ (factLine malformedRow ++ t) :=
  construction_total_verbatim malformedTable malformedRow
    (List.mem_cons_of_mem _ (List.mem_cons_self _ _))

/-- C4: a group containing a row with `p_close = 1.5` evaluates to
`DomainError`; no probability is returned and the value is not clamped. -/
theorem out_of_range_probability_rejected (rows : List Row) (r : Row)
    (hr : r ∈ rows) (hp : r.p_close = 3/2) :
    evaluateGroup rows = .error .domainError := by
  have hcond : ¬ ∀ p ∈ rows.map Row.p_close, 0 ≤ p ∧ p ≤ 1 := by
    intro hall
    have h2 := (hall r.p_close (List.mem_map_of_mem Row.p_close hr)).2
    rw [hp] at h2
    norm_num at h2
  rw [evaluateGroup, evaluateProgram, if_neg hcond]

/-- C4 witness: the singleton group with `p_close = 1.5` yields
`DomainError`. -/
theorem out_of_range_probability_rejected_witness :
    evaluateGroup badGroup = .error .domainError :=
  out_of_range_probability_rejected badGroup ⟨"0", "a", "b", 3/2⟩
    (List.mem_cons_self _ _) rfl

/-- C7: evaluation of a timestep group is a pure function of the group's
probability column: two evaluations of the same content return the same
probability (no hidden state between evaluations). -/
theorem evaluate_group_deterministic (g1 g2 : List Row)
    (h : g1.map Row.p_close = g2.map Row.p_close) :
    evaluateGroup g1 = evaluateGroup g2 := by
  rw [evaluateGroup, evaluateGroup, h]

/-- Two single-row groups with the same probability column. -/
def repeatGroupA : List Row := [⟨"3", "a", "b", 1/2⟩]

/-- A group with the same probability column as `repeatGroupA`. -/
def repeatGroupB : List Row := [⟨"7", "x", "y", 1/2⟩]

/-- C7 witness: evaluating the same probability content twice gives the same
result. -/
theorem evaluate_group_deterministic_witness :
    evaluateGroup repeatGroupA = evaluateGroup repeatGroupB :=
  evaluate_group_deterministic repeatGroupA repeatGroupB rfl

/-- C3 counterexample: on `errorTable` the first timestep's evaluation fails,
and although the second timestep `"1"` exists and evaluates to `0.5` on its
own, the run produces no output at all for it: the failure aborts the
processing of subsequent timestep groups. -/
theorem run_abort_counterexample :
    (run errorTable).1 = [] ∧ (run errorTable).2 = some ("0", .domainError)
      ∧ "1" ∈ firstUnique (errorTable.map Row.t)
      ∧ evaluateGroup (groupOf errorTable "1") = .ok (1/2) := by
  have hk : firstUnique (errorTable.map Row.t) = ["0", "1"] := by
    simp [firstUnique, errorTable, firstUniqueFrom]
  have h0 : evaluateGroup (groupOf errorTable "0") = .error .domainError := by
    have hg : groupOf errorTable "0" = [⟨"0", "a", "b", 3/2⟩] := by
      simp [groupOf, errorTable]
    rw [hg]
    norm_num [evaluateGroup, evaluateProgram]
  have h1 : evaluateGroup (groupOf errorTable "1") = .ok (1/2) := by
    have hg : groupOf errorTable "1" = [⟨"1", "c", "d", 1/2⟩] := by
      simp [groupOf, errorTable]
    rw [hg]
    norm_num [evaluateGroup, evaluateProgram, wmcQuery, allAssignments, worldWeight]
  refine ⟨?_, ?_, ?_, h1⟩
  · rw [run, hk, runKeys, h0]
  · rw [run, hk, runKeys, h0]
  · rw [hk]
    simp

lemma runKeys_error_split (table : List Row) (ks : List String) (k : String)
    (e : EngineError) (h : (runKeys table ks).2 = some (k, e)) :
    evaluateGroup (groupOf table k) = .error e ∧
      ∃ rest, ks = (runKeys table ks).1.map (fun o => o.1) ++ k :: rest := by
  induction ks with
  | nil => simp [runKeys] at h
  | cons k0 ks ih =>
    cases hev : evaluateGroup (groupOf table k0) with
    | error e0 =>
      have hrun : runKeys table (k0 :: ks) = ([], some (k0, e0)) := by
        rw [runKeys, hev]
      rw [hrun] at h
      simp only [Option.some.injEq, Prod.mk.injEq] at h
      obtain ⟨hk, he⟩ := h
      subst hk
      subst he
      refine ⟨hev, ks, ?_⟩
      rw [hrun]
      simp
    | ok p =>
      have hrun : runKeys table (k0 :: ks)
          = ((k0, buildModel (groupOf table k0), p) :: (runKeys table ks).1,
             (runKeys table ks).2) := by
        rw [runKeys, hev]
      rw [hrun] at h
      obtain ⟨he, rest, hrest⟩ := ih h
      refine ⟨he, rest, ?_⟩
      rw [hrun]
      simp only [List.map_cons, List.cons_append]
      rw [← hrest]

/-- C3 (amended): an evaluation failure on one timestep aborts the run at
that timestep: the keys that produced output are exactly those preceding the
failing key in first-appearance order, so no subsequent timestep group is
processed. -/
theorem run_aborts_at_first_error (table : List Row) (k : String)
    (e : EngineError) (h : (run table).2 = some (k, e)) :
    evaluateGroup (groupOf table k) = .error e ∧
      ∃ rest, firstUnique (table.map Row.t)
        = (run table).1.map (fun o => o.1) ++ k :: rest := by
  rw [run] at h ⊢
  exact runKeys_error_split table _ k e h

/-- C3 witness: on `errorTable` the run stops at key `"0"`, whose group fails
with `DomainError`, before any output is produced. -/
theorem run_aborts_at_first_error_witness :
    evaluateGroup (groupOf errorTable "0") = .error .domainError ∧
      ∃ rest, firstUnique (errorTable.map Row.t)
        = (run errorTable).1.map (fun o => o.1) ++ "0" :: rest := by
  refine run_aborts_at_first_error errorTable "0" .domainError ?_
  have hk : firstUnique (errorTable.map Row.t) = ["0", "1"] := by
    simp [firstUnique, errorTable, firstUniqueFrom]
  have h0 : evaluateGroup (groupOf errorTable "0") = .error .domainError := by
    have hg : groupOf errorTable "0" = [⟨"0", "a", "b", 3/2⟩] := by
      simp [groupOf, errorTable]
    rw [hg]
    norm_num [evaluateGroup, evaluateProgram]
  rw [run, hk, runKeys, h0]

lemma mem_firstUniqueFrom (l : List String) : ∀ (seen : List String) (k : String),
    k ∈ firstUniqueFrom seen l ↔ k ∈ l ∧ k ∉ seen := by
  induction l with
  | nil =>
    intro seen k
    simp [firstUniqueFrom]
  | cons x xs ih =>
    intro seen k
    by_cases hx : x ∈ seen
    · rw [firstUniqueFrom, if_pos hx, ih]
      constructor
      · rintro ⟨hk, hs⟩
        exact ⟨List.mem_cons_of_mem _ hk, hs⟩
      · rintro ⟨hk, hs⟩
        rcases List.mem_cons.mp hk with rfl | hk'
        · exact absurd hx hs
        · exact ⟨hk', hs⟩
    · rw [firstUniqueFrom, if_neg hx]
      constructor
      · intro hmem
        rcases List.mem_cons.mp hmem with rfl | hk'
        · exact ⟨List.mem_cons_self _ _, hx⟩
        · obtain ⟨hk, hs⟩ := (ih (x :: seen) k).mp hk'
          exact ⟨List.mem_cons_of_mem _ hk, fun hm => hs (List.mem_cons_of_mem _ hm)⟩
      · rintro ⟨hk, hs⟩
        rcases List.mem_cons.mp hk with rfl | hk'
        · exact List.mem_cons_self _ _
        · by_cases hkx : k = x
          · subst hkx
            exact List.mem_cons_self _ _
          · refine List.mem_cons_of_mem _ ((ih (x :: seen) k).mpr ⟨hk', ?_⟩)
            intro hm
            rcases List.mem_cons.mp hm with h' | h'
            · exact hkx h'
            · exact hs h'

lemma mem_firstUnique (l : List String) (k : String) :
    k ∈ firstUnique l ↔ k ∈ l := by
  rw [firstUnique, mem_firstUniqueFrom]
  simp

lemma eval_ok_of_range (g : List Row)
    (h : ∀ r ∈ g, 0 ≤ r.p_close ∧ r.p_close ≤ 1) :
    evaluateGroup g = .ok (wmcQuery (g.map Row.p_close)) := by
  have hcond : ∀ p ∈ g.map Row.p_close, 0 ≤ p ∧ p ≤ 1 := by
    intro p hp
    obtain ⟨r, hr, rfl⟩ := List.mem_map.mp hp
    exact h r hr
  rw [evaluateGroup, evaluateProgram, if_pos hcond]

lemma runKeys_of_range (table : List Row)
    (h : ∀ r ∈ table, 0 ≤ r.p_close ∧ r.p_close ≤ 1) (ks : List String) :
    runKeys table ks
      = (ks.map (fun k => (k, buildModel (groupOf table k), groupProb table k)),
         none) := by
  induction ks with
  | nil => rw [runKeys]; simp
  | cons k ks ih =>
    have hg : evaluateGroup (groupOf table k) = .ok (groupProb table k) :=
      eval_ok_of_range _ (fun r hr => h r (List.mem_of_mem_filter hr))
    rw [runKeys, hg, ih]
    rfl

lemma find?_eq_of_mem (l : List String) (k : String) :
    l.find? (fun x => x = k) = if k ∈ l then some k else none := by
  induction l with
  | nil => simp
  | cons x xs ih =>
    by_cases hx : x = k
    · subst hx
      rw [List.find?_cons_of_pos _ (by simp)]
      simp
    · rw [List.find?_cons_of_neg _ (by simp [hx]), ih]
      by_cases hk : k ∈ xs
      · have hm : k ∈ x :: xs := List.mem_cons_of_mem _ hk
        simp [hk, hm]
      · have hm : k ∉ x :: xs := by
          intro hmem
          rcases List.mem_cons.mp hmem with rfl | h'
          · exact hx rfl
          · exact hk h'
        simp [hk, hm]

lemma mem_map_t_iff (table : List Row) (k : String) :
    k ∈ table.map Row.t ↔ groupOf table k ≠ [] := by
  simp only [groupOf, Ne, List.filter_eq_nil_iff, decide_eq_true_eq, List.mem_map]
  push_neg
  constructor
  · rintro ⟨r, hr, hrt⟩
    exact ⟨r, hr, hrt⟩
  · rintro ⟨r, hr, hrt⟩
    exact ⟨r, hr, hrt⟩

/-- C8: the output printed for timestep `k` depends only on the rows whose
key is `k`: two input tables with probabilities in range that agree on the
group of `k` produce the same output entry for `k`, whatever their other
rows are. -/
theorem output_depends_only_on_group (t1 t2 : List Row) (k : String)
    (h1 : ∀ r ∈ t1, 0 ≤ r.p_close ∧ r.p_close ≤ 1)
    (h2 : ∀ r ∈ t2, 0 ≤ r.p_close ∧ r.p_close ≤ 1)
    (hagree : groupOf t1 k = groupOf t2 k) :
    (run t1).1.find? (fun o => o.1 = k) = (run t2).1.find? (fun o => o.1 = k) := by
  rw [run, run, runKeys_of_range t1 h1, runKeys_of_range t2 h2]
  simp only [List.find?_map]
  have hc1 : ((fun o : String × String × ℚ => decide (o.1 = k))
      ∘ (fun k' => (k', buildModel (groupOf t1 k'), groupProb t1 k')))
      = (fun x => decide (x = k)) := rfl
  have hc2 : ((fun o : String × String × ℚ => decide (o.1 = k))
      ∘ (fun k' => (k', buildModel (groupOf t2 k'), groupProb t2 k')))
      = (fun x => decide (x = k)) := rfl
  rw [hc1, hc2, find?_eq_of_mem, find?_eq_of_mem]
  have hmem : k ∈ firstUnique (t1.map Row.t) ↔ k ∈ firstUnique (t2.map Row.t) := by
    rw [mem_firstUnique, mem_firstUnique, mem_map_t_iff, mem_map_t_iff, hagree]
  by_cases hk : k ∈ firstUnique (t1.map Row.t)
  · rw [if_pos hk, if_pos (hmem.mp hk)]
    simp only [Option.map_some']
    rw [groupProb, groupProb, hagree]
  · rw [if_neg hk, if_neg (fun hm => hk (hmem.mpr hm))]
    rfl

/-- A one-row table for timestep `"5"`. -/
def table8a : List Row := [⟨"5", "a", "b", 1/2⟩]

/-- A table agreeing with `table8a` on timestep `"5"` but holding an extra
earlier timestep. -/
def table8b : List Row := [⟨"9", "x", "y", 1/3⟩, ⟨"5", "a", "b", 1/2⟩]

/-- C8 witness: the output entry for timestep `"5"` is the same for the two
tables, although they differ on other timesteps. -/
theorem output_depends_only_on_group_witness :
    (run table8a).1.find? (fun o => o.1 = "5")
      = (run table8b).1.find? (fun o => o.1 = "5") :=
  output_depends_only_on_group table8a table8b "5"
    (by norm_num [table8a]) (by norm_num [table8b])
    (by simp [groupOf, table8a, table8b])

lemma runKeys_fst_prefix (table : List Row) (ks : List String) :
    ((runKeys table ks).1.map (fun o => o.1)) <+: ks := by
  induction ks with
  | nil =>
    rw [runKeys]
    simp
  | cons k ks ih =>
    cases hev : evaluateGroup (groupOf table k) with
    | error e =>
      have hrun : runKeys table (k :: ks) = ([], some (k, e)) := by
        rw [runKeys, hev]
      rw [hrun]
      simp
    | ok p =>
      have hrun : runKeys table (k :: ks)
          = ((k, buildModel (groupOf table k), p) :: (runKeys table ks).1,
             (runKeys table ks).2) := by
        rw [runKeys, hev]
      rw [hrun]
      simp only [List.map_cons]
      rw [List.cons_prefix_cons]
      exact ⟨rfl, ih⟩

lemma firstUniqueFrom_congr (l : List String) : ∀ (s1 s2 : List String),
    (∀ a, a ∈ s1 ↔ a ∈ s2) → firstUniqueFrom s1 l = firstUniqueFrom s2 l := by
  induction l with
  | nil =>
    intro s1 s2 _
    rfl
  | cons x xs ih =>
    intro s1 s2 h
    by_cases hx : x ∈ s1
    · rw [firstUniqueFrom, firstUniqueFrom, if_pos hx, if_pos ((h x).mp hx),
        ih s1 s2 h]
    · rw [firstUniqueFrom, firstUniqueFrom, if_neg hx,
        if_neg (fun hm => hx ((h x).mpr hm))]
      congr 1
      refine ih _ _ ?_
      intro a
      simp only [List.mem_cons]
      rw [h a]

lemma foldl_scan_eq (l : List String) : ∀ acc : List String,
    l.foldl (fun acc x => if x ∈ acc then acc else acc ++ [x]) acc
      = acc ++ firstUniqueFrom acc l := by
  induction l with
  | nil =>
    intro acc
    simp [firstUniqueFrom]
  | cons x xs ih =>
    intro acc
    by_cases hx : x ∈ acc
    · rw [List.foldl_cons]
      simp only [if_pos hx]
      rw [ih, firstUniqueFrom, if_pos hx]
    · rw [List.foldl_cons]
      simp only [if_neg hx]
      rw [ih, firstUniqueFrom, if_neg hx]
      rw [firstUniqueFrom_congr xs (acc ++ [x]) (x :: acc)
        (by intro a; simp [List.mem_append, List.mem_cons, or_comm])]
      simp

lemma firstUnique_eq_spec (l : List String) :
    firstUnique l = specFirstAppearance l := by
  rw [specFirstAppearance, foldl_scan_eq, firstUnique]
  simp

/-- C9: timesteps are processed sequentially in the order in which each
distinct timestep value first appears in the input, and the per-timestep
outputs come in that same order: the emitted keys form a prefix (the whole
list when no evaluation fails) of the first-appearance ordering of the
timestep column, and the embedded `unique` equals the claim's left-to-right
first-appearance scan. -/
theorem run_first_appearance_order (table : List Row) :
    ((run table).1.map (fun o => o.1)) <+: firstUnique (table.map Row.t)
      ∧ firstUnique (table.map Row.t) = specFirstAppearance (table.map Row.t) := by
  constructor
  · rw [run]
    exact runKeys_fst_prefix table _
  · exact firstUnique_eq_spec _
